import Mathlib

/-!
# Verification of the latex-agent repository against its specification

This file gives a shallow embedding of the parts of the `latex-agent`
web application that its specification makes claims about:

* the project-to-job-description relevance scorer and top-K selection
  (backend; modelled from the spec, since the backend source is not in
  the repository snapshot, only its documentation and callers are);
* the round-robin API-key rotation on quota errors (backend; modelled
  from the spec for the same reason);
* the CRUD create/get round-trip (backend handlers modelled from the
  spec; the frontend client in `frontend/src/lib/api.ts` is in the
  snapshot);
* the axios request/response interceptors of the shared API client
  (`frontend/src/lib/api.ts`);
* the resume compile mutation and its toast reporting
  (`frontend/src/app/dashboard/resumes/[id]/edit/page.tsx`);
* the GitHub-URL parsing of the import mutation
  (`frontend/src/components/dashboard/projects-list.tsx`).

Each claim of the specification is settled by one theorem below.
-/

/-! ## Relevance scorer (spec §4.1)

Modelled from the spec: the backend relevance scorer is not in the
snapshot.  The spec says: given a job description's keyword set and a
project's combined text (title + description + technologies), both
case-normalized into token sets, the score is the count of intersecting
tokens; projects are ranked descending, ties broken by original
insertion order (stable sort), and the top K = 3 are selected. -/

/-- Modelled from the spec: case normalization of a token list
(the backend normalizer is not in the snapshot). -/
def normalizeTokens (ts : List String) : List String :=
  ts.map String.toLower

/-- Modelled from the spec: the overlap score of two token sets,
"count of intersecting tokens" (the backend scorer is not in the
snapshot).  Duplicates do not count twice: the inputs are read as sets. -/
def relevanceScore (kw tokens : List String) : Nat :=
  (kw.dedup.filter (fun t => tokens.contains t)).length

/-- A stored project, with the fields the ranking reads
(title, description, technologies). -/
structure Project where
  title : String
  description : String
  technologies : List String
deriving DecidableEq, Repr

/-- Modelled from the spec: a project's combined text
(title + description + technologies), case-normalized into tokens. -/
def combinedTokens (p : Project) : List String :=
  normalizeTokens (p.title.splitOn " " ++ p.description.splitOn " " ++ p.technologies)

/-- Modelled from the spec: the relevance score of a project against a
job description's keyword list. -/
def projectScore (kw : List String) (p : Project) : Nat :=
  relevanceScore (normalizeTokens kw) (combinedTokens p)

/-- Overlap of a deduplicated filtered list, as a `Finset` intersection. -/
theorem relevanceScore_eq_card_inter (kw tokens : List String) :
    relevanceScore kw tokens = (kw.toFinset ∩ tokens.toFinset).card := by
  unfold relevanceScore
  have hnd : (kw.dedup.filter (fun t => tokens.contains t)).Nodup :=
    (List.nodup_dedup kw).filter _
  rw [← List.toFinset_card_of_nodup hnd]
  congr 1
  ext a
  simp [List.mem_dedup]

/-- **C1.** For every job description keyword list and every project,
both case-normalized into token sets, the relevance score of the
project is exactly the count of tokens in the intersection of the two
sets. -/
theorem projectScore_eq_card_inter (kw : List String) (p : Project) :
    projectScore kw p
      = ((normalizeTokens kw).toFinset ∩ (combinedTokens p).toFinset).card :=
  relevanceScore_eq_card_inter _ _

/-! ## Ranking and top-K selection (spec §4.1)

Modelled from the spec: projects are ranked by descending score, ties
broken by original insertion order (a stable sort), and the first
K = 3 are selected.  The insertion position is made explicit by
pairing each project with its index (`List.enum`), so the stable
descending order is the strict lexicographic order
"higher score first, then lower index first". -/

/-- Modelled from the spec: the Boolean comparison used to rank
indexed projects: strictly higher score first; on equal scores the
earlier insertion index first. -/
def rankLE (kw : List String) (a b : Nat × Project) : Bool :=
  decide (projectScore kw b.2 < projectScore kw a.2) ||
    (decide (projectScore kw a.2 = projectScore kw b.2) && decide (a.1 ≤ b.1))

/-- Modelled from the spec: stable descending sort of the projects,
carrying their original insertion indices. -/
def rankedIndexed (kw : List String) (ps : List Project) : List (Nat × Project) :=
  ps.enum.mergeSort (rankLE kw)

/-- Modelled from the spec: the full ranking of the projects,
descending by relevance score, ties in insertion order. -/
def rankAll (kw : List String) (ps : List Project) : List Project :=
  (rankedIndexed kw ps).map Prod.snd

/-- Modelled from the spec: top-K selection with K = 3. -/
def selectTop (kw : List String) (ps : List Project) : List Project :=
  (rankAll kw ps).take 3

theorem rankLE_trans (kw : List String) (a b c : Nat × Project)
    (hab : rankLE kw a b = true) (hbc : rankLE kw b c = true) :
    rankLE kw a c = true := by
  simp only [rankLE, Bool.or_eq_true, Bool.and_eq_true, decide_eq_true_eq] at *
  omega

theorem rankLE_total (kw : List String) (a b : Nat × Project) :
    (rankLE kw a b || rankLE kw b a) = true := by
  simp only [rankLE, Bool.or_eq_true, Bool.and_eq_true, decide_eq_true_eq]
  omega

theorem rankedIndexed_sorted (kw : List String) (ps : List Project) :
    (rankedIndexed kw ps).Pairwise (fun a b => rankLE kw a b = true) :=
  List.sorted_mergeSort (rankLE_trans kw) (rankLE_total kw) ps.enum

theorem rankedIndexed_perm (kw : List String) (ps : List Project) :
    (rankedIndexed kw ps).Perm ps.enum :=
  List.mergeSort_perm ps.enum (rankLE kw)

theorem rankAll_perm (kw : List String) (ps : List Project) :
    (rankAll kw ps).Perm ps := by
  have h := (rankedIndexed_perm kw ps).map Prod.snd
  rwa [List.enum_map_snd] at h

theorem rankAll_pairwise_score (kw : List String) (ps : List Project) :
    (rankAll kw ps).Pairwise
      (fun a b => projectScore kw b ≤ projectScore kw a) := by
  apply List.pairwise_map.mpr
  apply (rankedIndexed_sorted kw ps).imp
  intro a b h
  simp only [rankLE, Bool.or_eq_true, Bool.and_eq_true, decide_eq_true_eq] at h
  omega

theorem enum_fst_inj {α : Type} (xs : List α) {i : Nat} {x y : α}
    (hx : (i, x) ∈ xs.enum) (hy : (i, y) ∈ xs.enum) : x = y := by
  obtain ⟨-, -, h1⟩ := List.mem_enumFrom hx
  obtain ⟨-, -, h2⟩ := List.mem_enumFrom hy
  rw [h1, h2]

/-- **C2.** For a fixed keyword list and project list the ranking is
deterministic: any list that is a permutation of the indexed projects
and is sorted for the ranking comparison equals the produced ranking
(so the output is uniquely determined by the inputs); the produced
ranking is in descending score order; and ties between equal-scoring
projects keep their original insertion order. -/
theorem ranking_deterministic_stable (kw : List String) (ps : List Project) :
    (∀ l : List (Nat × Project),
        l.Perm ps.enum →
        l.Pairwise (fun a b => rankLE kw a b = true) →
        l = rankedIndexed kw ps) ∧
    (rankAll kw ps).Pairwise
      (fun a b => projectScore kw b ≤ projectScore kw a) ∧
    (rankedIndexed kw ps).Pairwise
      (fun a b => projectScore kw a.2 = projectScore kw b.2 → a.1 ≤ b.1) := by
  refine ⟨?_, rankAll_pairwise_score kw ps, ?_⟩
  · intro l hperm hsorted
    refine List.Perm.eq_of_sorted ?_ hsorted (rankedIndexed_sorted kw ps)
      (hperm.trans (rankedIndexed_perm kw ps).symm)
    intro a b ha hb hab hba
    have ha' : a ∈ ps.enum := hperm.mem_iff.mp ha
    have hb' : b ∈ ps.enum := (rankedIndexed_perm kw ps).mem_iff.mp hb
    simp only [rankLE, Bool.or_eq_true, Bool.and_eq_true, decide_eq_true_eq]
      at hab hba
    have hfst : a.1 = b.1 := by omega
    obtain ⟨i, x⟩ := a
    obtain ⟨j, y⟩ := b
    simp only at hfst
    subst hfst
    have : x = y := enum_fst_inj ps ha' hb'
    rw [this]
  · apply (rankedIndexed_sorted kw ps).imp
    intro a b h
    simp only [rankLE, Bool.or_eq_true, Bool.and_eq_true, decide_eq_true_eq] at h
    omega

/-- **C3.** The selection step returns the top-K of the ranking with
K = 3: it is the 3-element prefix of the full ranking, has exactly
min(3, number of projects) entries, the full ranking is a permutation
of the input projects, and every selected project scores at least as
high as every project left out. -/
theorem selectTop_topK (kw : List String) (ps : List Project) :
    selectTop kw ps = (rankAll kw ps).take 3 ∧
    (selectTop kw ps).length = min 3 ps.length ∧
    (rankAll kw ps).Perm ps ∧
    (∀ p ∈ selectTop kw ps, ∀ q ∈ (rankAll kw ps).drop 3,
      projectScore kw q ≤ projectScore kw p) := by
  refine ⟨rfl, ?_, rankAll_perm kw ps, ?_⟩
  · rw [selectTop, List.length_take, (rankAll_perm kw ps).length_eq]
  · have h := rankAll_pairwise_score kw ps
    rw [← List.take_append_drop 3 (rankAll kw ps)] at h
    exact (List.pairwise_append.mp h).2.2

theorem pairwise_fst_lt_enumFrom {α : Type} :
    ∀ (n : Nat) (xs : List α),
      (List.enumFrom n xs).Pairwise (fun a b => a.1 < b.1) := by
  intro n xs
  induction xs generalizing n with
  | nil => exact List.Pairwise.nil
  | cons x xs ih =>
      refine List.Pairwise.cons ?_ (ih (n + 1))
      intro b hb
      have h := List.mem_enumFrom hb
      omega

theorem projectScore_nil (p : Project) : projectScore [] p = 0 := rfl

theorem enum_sorted_rankLE_nil (ps : List Project) :
    ps.enum.Pairwise (fun a b => rankLE [] a b = true) := by
  apply (pairwise_fst_lt_enumFrom 0 ps).imp
  intro a b h
  simp only [rankLE, projectScore_nil, Bool.or_eq_true, Bool.and_eq_true,
    decide_eq_true_eq, lt_self_iff_false, false_or, true_and]
  omega

theorem rankedIndexed_nil_kw (ps : List Project) :
    rankedIndexed [] ps = ps.enum :=
  List.mergeSort_of_sorted (enum_sorted_rankLE_nil ps)

theorem rankAll_nil_kw (ps : List Project) : rankAll [] ps = ps := by
  rw [rankAll, rankedIndexed_nil_kw, List.enum_map_snd]

theorem selectTop_nil_kw (ps : List Project) :
    selectTop [] ps = ps.take 3 := by
  rw [selectTop, rankAll_nil_kw]

/-- **C4.** The scorer has no error conditions: an empty keyword list
gives every project score 0, and the selection is then the original
project order truncated to the first K = 3 projects. -/
theorem emptyKeywords_zero_and_truncate (ps : List Project) (p : Project) :
    projectScore [] p = 0 ∧ selectTop [] ps = ps.take 3 :=
  ⟨projectScore_nil p, selectTop_nil_kw ps⟩

/-- A concrete project used to instantiate ranking theorems. -/
def sampleProjectA : Project :=
  { title := "Chess engine", description := "an engine", technologies := ["python"] }

/-- A second concrete project used to instantiate ranking theorems. -/
def sampleProjectB : Project :=
  { title := "Web shop", description := "a shop", technologies := ["react"] }

/-- A third concrete project used to instantiate ranking theorems. -/
def sampleProjectC : Project :=
  { title := "Compiler", description := "a compiler", technologies := ["rust"] }

/-- A fourth concrete project used to instantiate ranking theorems. -/
def sampleProjectD : Project :=
  { title := "Game", description := "a game", technologies := ["zig"] }

/-- Witness for **C2** at a concrete input. -/
theorem ranking_deterministic_stable_witness :
    [(0, sampleProjectA)] = rankedIndexed [] [sampleProjectA] :=
  (ranking_deterministic_stable [] [sampleProjectA]).1 [(0, sampleProjectA)]
    (by decide) (by decide)

/-- Witness for **C3** at a concrete input. -/
theorem selectTop_topK_witness :
    projectScore [] sampleProjectD ≤ projectScore [] sampleProjectA :=
  (selectTop_topK [] [sampleProjectA, sampleProjectB, sampleProjectC,
      sampleProjectD]).2.2.2
    sampleProjectA (by rw [selectTop_nil_kw]; decide)
    sampleProjectD (by rw [rankAll_nil_kw]; decide)


/-! ## CRUD create/get round-trip (spec §6, §8)

Modelled from the spec: the backend CRUD handlers are not in the
snapshot; the spec says "CRUD endpoints round-trip stored fields
unchanged".  The store keeps records under fresh numeric ids; `create`
inserts the submitted payload, `get` fetches it back.  The payload
record types below carry exactly the fields the frontend client
(`frontend/src/lib/api.ts`) submits for each entity. -/

/-- Modelled from the spec: a per-entity record store with fresh ids. -/
structure Store (α : Type) where
  nextId : Nat
  recs : List (Nat × α)

/-- Modelled from the spec: the create endpoint stores the submitted
payload under a fresh id and returns that id. -/
def createRec {α : Type} (st : Store α) (data : α) : Store α × Nat :=
  ({ nextId := st.nextId + 1, recs := (st.nextId, data) :: st.recs }, st.nextId)

/-- Modelled from the spec: the get endpoint returns the stored
payload for an id, if any. -/
def getRec {α : Type} (st : Store α) (id : Nat) : Option α :=
  (st.recs.find? (fun r => r.1 == id)).map Prod.snd

/-- The fields `projectsApi.create` submits (`frontend/src/lib/api.ts`). -/
structure ProjectCreate where
  title : String
  description : String
  technologies : Option (List String)
  url : Option String
  highlights : Option (List String)
  start_date : Option String
  end_date : Option String
deriving DecidableEq, Repr

/-- The fields `jobsApi.create` submits (`frontend/src/lib/api.ts`). -/
structure JobCreate where
  title : String
  company : String
  raw_text : String
  url : Option String
deriving DecidableEq, Repr

/-- The fields `templatesApi.create` submits (`frontend/src/lib/api.ts`). -/
structure TemplateCreate where
  name : String
  description : String
  latex_content : String
  category : Option String
deriving DecidableEq, Repr

/-- The fields `resumesApi.create` submits (`frontend/src/lib/api.ts`). -/
structure ResumeCreate where
  name : String
  template_id : Option String
  job_description_id : Option String
  project_ids : Option (List String)
deriving DecidableEq, Repr

theorem store_roundtrip {α : Type} (st : Store α) (d : α) :
    getRec (createRec st d).1 (createRec st d).2 = some d := by
  simp [getRec, createRec]

/-- **C5.** For every CRUD entity (project, job description, template,
resume) and every record created through its create endpoint, fetching
the record afterwards returns the stored fields unchanged. -/
theorem crud_create_get_roundtrip :
    (∀ (st : Store ProjectCreate) (d : ProjectCreate),
        getRec (createRec st d).1 (createRec st d).2 = some d) ∧
    (∀ (st : Store JobCreate) (d : JobCreate),
        getRec (createRec st d).1 (createRec st d).2 = some d) ∧
    (∀ (st : Store TemplateCreate) (d : TemplateCreate),
        getRec (createRec st d).1 (createRec st d).2 = some d) ∧
    (∀ (st : Store ResumeCreate) (d : ResumeCreate),
        getRec (createRec st d).1 (createRec st d).2 = some d) :=
  ⟨fun st d => store_roundtrip st d, fun st d => store_roundtrip st d,
   fun st d => store_roundtrip st d, fun st d => store_roundtrip st d⟩

/-! ## API-key rotation on quota errors (spec §5, §7)

Modelled from the spec: the backend LLM caller is not in the snapshot;
the spec says "API-key rotation across multiple keys is a simple
round-robin retry on quota errors" and "no custom retry/backoff logic
beyond simple key rotation".  An LLM call with the key at a given
index either succeeds, hits a quota error, or fails otherwise; only a
quota error advances the key index (round-robin, modulo the number of
keys) and retries.  `fuel` bounds the number of attempts. -/

/-- Outcome of one LLM request with one API key. -/
inductive LlmOutcome where
  | success (text : String)
  | quotaExceeded
  | failure (msg : String)
deriving DecidableEq, Repr

/-- Modelled from the spec: round-robin retry on quota errors.
Returns the list of key indices attempted, and the final result. -/
def rotateKeys (call : Nat → LlmOutcome) (numKeys : Nat) :
    Nat → Nat → List Nat × Except String String
  | _, 0 => ([], Except.error "All API keys exhausted")
  | idx, fuel + 1 =>
      match call idx with
      | LlmOutcome.success t => ([idx], Except.ok t)
      | LlmOutcome.failure m => ([idx], Except.error m)
      | LlmOutcome.quotaExceeded =>
          let r := rotateKeys call numKeys ((idx + 1) % numKeys) fuel
          (idx :: r.1, r.2)

/-- **C7.** On a quota error the request is retried with the next key
in round-robin order (index + 1 modulo the key count); a success or a
non-quota failure ends the run after the single attempt, so quota
errors are the only condition that triggers rotation. -/
theorem quota_rotation_round_robin (call : Nat → LlmOutcome)
    (n idx fuel : Nat) :
    (call idx = LlmOutcome.quotaExceeded →
        rotateKeys call n idx (fuel + 1)
          = (idx :: (rotateKeys call n ((idx + 1) % n) fuel).1,
             (rotateKeys call n ((idx + 1) % n) fuel).2)) ∧
    (∀ t, call idx = LlmOutcome.success t →
        rotateKeys call n idx (fuel + 1) = ([idx], Except.ok t)) ∧
    (∀ m, call idx = LlmOutcome.failure m →
        rotateKeys call n idx (fuel + 1) = ([idx], Except.error m)) := by
  refine ⟨fun h => ?_, fun t h => ?_, fun m h => ?_⟩ <;>
    simp [rotateKeys, h]

/-- A concrete key behaviour: the first key is over quota, the second
succeeds. -/
def sampleCall : Nat → LlmOutcome :=
  fun i => if i == 0 then LlmOutcome.quotaExceeded else LlmOutcome.success "ok"

/-- Witness for **C7** at a concrete input. -/
theorem quota_rotation_round_robin_witness :
    rotateKeys sampleCall 2 0 4
      = (0 :: (rotateKeys sampleCall 2 1 3).1, (rotateKeys sampleCall 2 1 3).2) :=
  (quota_rotation_round_robin sampleCall 2 0 3).1 rfl

/-! ## Resume compile mutation (frontend/src/app/dashboard/resumes/[id]/edit/page.tsx)

`compileMutation` saves pending edits (at most one `updateLatex` call),
issues exactly one `compile` call, and reports the outcome through a
toast: success shows a plain toast, a `success:false` response shows a
destructive "Compilation failed" toast carrying the first error
message (JavaScript `||`, so an empty message also falls back to the
default text), and a transport error shows a destructive "Error"
toast. -/

/-- A frontend toast notification, as raised by the edit page. -/
structure Toast where
  title : String
  description : String
  destructive : Bool
deriving DecidableEq, Repr

/-- One entry of the `errors` array of a compile response. -/
structure CompileErrorEntry where
  message : String
deriving DecidableEq, Repr

/-- The body of the backend's compile response the page reads:
`success` and the `errors` array. -/
structure CompileResponse where
  success : Bool
  errors : List CompileErrorEntry
deriving DecidableEq, Repr

/-- `res.data.errors?.[0]?.message || 'Check LaTeX for errors.'`:
the first error message, falling back to the default text when the
array is empty or the message is the empty string (JavaScript `||`). -/
def firstErrorMessage (res : CompileResponse) : String :=
  match res.errors.head? with
  | some e => if e.message = "" then "Check LaTeX for errors." else e.message
  | none => "Check LaTeX for errors."

/-- The toast raised by `compileMutation.onSuccess`. -/
def compileOnSuccess (res : CompileResponse) : Toast :=
  if res.success then
    { title := "Compiled!", description := "PDF generated successfully.",
      destructive := false }
  else
    { title := "Compilation failed", description := firstErrorMessage res,
      destructive := true }

/-- The toast raised by `compileMutation.onError`. -/
def compileOnError : Toast :=
  { title := "Error", description := "Compilation failed.", destructive := true }

/-- The API calls `compileMutation.mutationFn` issues, in order:
a save when there are unsaved changes, then the compile request. -/
def compileMutationCalls (hasUnsavedChanges : Bool) : List String :=
  (if hasUnsavedChanges then ["updateLatex"] else []) ++ ["compile"]

/-- **C6.** An upstream compilation failure is surfaced to the user:
a `success:false` compile response raises a destructive
"Compilation failed" toast carrying the error message, a transport
error raises a destructive toast as well, and the mutation issues
exactly one compile request (no retry or backoff). -/
theorem compile_failure_surfaced (res : CompileResponse) (b : Bool) :
    (res.success = false →
        compileOnSuccess res
          = { title := "Compilation failed",
              description := firstErrorMessage res, destructive := true }) ∧
    compileOnError.destructive = true ∧
    (compileMutationCalls b).count "compile" = 1 := by
  refine ⟨fun h => ?_, rfl, ?_⟩
  · simp [compileOnSuccess, h]
  · cases b <;> simp [compileMutationCalls]

/-- A concrete failing compile response. -/
def sampleFailedCompile : CompileResponse :=
  { success := false,
    errors := [{ message := "Undefined control sequence" }] }

/-- Witness for **C6** at a concrete input. -/
theorem compile_failure_surfaced_witness :
    compileOnSuccess sampleFailedCompile
      = { title := "Compilation failed",
          description := firstErrorMessage sampleFailedCompile,
          destructive := true } :=
  (compile_failure_surfaced sampleFailedCompile true).1 rfl

/-! ## Axios interceptors (frontend/src/lib/api.ts)

The shared client installs a request interceptor that attaches
`Authorization: Bearer <token>` when a token is in `localStorage`, and
a response interceptor that, on a 401 response, clears the token,
navigates to `/login`, and still rejects the error to the caller. -/

/-- The browser state the interceptors touch: the stored token and the
current location. -/
structure BrowserState where
  token : Option String
  location : String
deriving DecidableEq, Repr

/-- The error object the response interceptor reads:
`error.response?.status` (`none` when there was no response). -/
structure AxiosError where
  status : Option Nat
deriving DecidableEq, Repr

/-- The response-error interceptor: on status 401 (and in a browser
window) remove the stored token and navigate to `/login`; in every
case reject the error unchanged to the caller. -/
def handleResponseError (hasWindow : Bool) (st : BrowserState)
    (e : AxiosError) : BrowserState × Except AxiosError Unit :=
  if e.status = some 401 then
    if hasWindow then
      ({ token := none, location := "/login" }, Except.error e)
    else (st, Except.error e)
  else (st, Except.error e)

/-- The response-success interceptor: the identity. -/
def handleResponseSuccess {ρ : Type} (r : ρ) : ρ := r

/-- **C8.** A 401 response removes the stored token and navigates to
`/login`, and the error is still rejected to the caller; any other
status leaves the browser state unchanged and passes the error through
unchanged; successful responses pass through unchanged. -/
theorem response_interceptor_401 (st : BrowserState) (e : AxiosError) :
    (e.status = some 401 →
        handleResponseError true st e
          = ({ token := none, location := "/login" }, Except.error e)) ∧
    (e.status ≠ some 401 →
        handleResponseError true st e = (st, Except.error e)) ∧
    (∀ hw, (handleResponseError hw st e).2 = Except.error e) ∧
    (∀ (ρ : Type) (r : ρ), handleResponseSuccess r = r) := by
  refine ⟨fun h => ?_, fun h => ?_, fun hw => ?_, fun ρ r => rfl⟩
  · simp [handleResponseError, h]
  · simp [handleResponseError, h]
  · by_cases h : e.status = some 401 <;> cases hw <;>
      simp [handleResponseError, h]

/-- Witness for **C8** at a concrete input. -/
theorem response_interceptor_401_witness :
    handleResponseError true { token := some "tok", location := "/dashboard" }
        { status := some 401 }
      = ({ token := none, location := "/login" },
         Except.error { status := some 401 }) :=
  (response_interceptor_401 { token := some "tok", location := "/dashboard" }
    { status := some 401 }).1 rfl

/-- The request configuration the request interceptor touches: the
`Authorization` header (absent unless set). -/
structure RequestConfig where
  authorization : Option String
deriving DecidableEq, Repr

/-- The request interceptor: read the token from `localStorage` (only
in a browser window); the guard is JavaScript `if (token)`, which is
truthiness, so a missing token (`getItem` returned `null`) and an
empty-string token both leave the config unchanged; a nonempty token
sets `Authorization: Bearer <token>`. -/
def requestInterceptor (hasWindow : Bool) (stored : Option String)
    (c : RequestConfig) : RequestConfig :=
  match (if hasWindow then stored else none) with
  | some t =>
      if t = "" then c
      else { c with authorization := some ("Bearer " ++ t) }
  | none => c

/-- **C9**, counterexample to the claim as stated: when `localStorage`
holds the empty string, a token *is* stored, yet the program's
`if (token)` truthiness guard leaves the `Authorization` header unset,
so "the header is the stored token `Bearer`-prefixed" fails at
`some ""`. -/
theorem request_interceptor_auth_counterexample :
    (requestInterceptor true (some "") { authorization := none }).authorization
      ≠ (some "").map (fun t => "Bearer " ++ t) := by
  simp [requestInterceptor]

/-- **C9** (amended). A request carries `Authorization: Bearer <token>`
if and only if a *nonempty* token is stored (JavaScript truthiness:
the empty string counts as no token): a stored nonempty token yields
exactly the `Bearer `-prefixed header, and with no stored token or an
empty-string token the config passes through unchanged (the request is
still sent). -/
theorem request_interceptor_auth_truthy (stored : Option String)
    (c : RequestConfig) (hnone : c.authorization = none) :
    (∀ t, stored = some t → t ≠ "" →
        (requestInterceptor true stored c).authorization
          = some ("Bearer " ++ t)) ∧
    (stored = none → requestInterceptor true stored c = c) ∧
    (stored = some "" → requestInterceptor true stored c = c) := by
  refine ⟨?_, ?_, ?_⟩
  · rintro t rfl ht
    simp [requestInterceptor, ht]
  · rintro rfl
    simp [requestInterceptor]
  · rintro rfl
    simp [requestInterceptor]

/-- Witness for **C9** at a concrete input. -/
theorem request_interceptor_auth_truthy_witness :
    (requestInterceptor true (some "tok")
        { authorization := none }).authorization
      = some ("Bearer " ++ "tok") :=
  (request_interceptor_auth_truthy (some "tok") { authorization := none }
    rfl).1 "tok" rfl (by decide)

/-! ## GitHub import URL parsing (frontend/src/components/dashboard/projects-list.tsx)

`importMutation.mutationFn` runs
`url.match(/github\.com\/([^\/]+)\/([^\/]+)/)`; with no match it
throws `Invalid GitHub URL` before any request is issued; with a match
it calls `projectsApi.importGithub(owner, repo.replace('.git', ''))`.
The regex is embedded directly: `[^\/]+` cannot match a slash, so the
greedy owner group is exactly the maximal non-slash run after
`github.com/` (backtracking can never help), the match position is the
leftmost position at which the pattern matches, and
`String.replace` with a string pattern replaces only the first
occurrence. -/

/-- `[^\/]`: any character other than a slash. -/
def nonSlash (c : Char) : Bool := decide (c ≠ '/')

/-- The literal part `github\.com\/` of the regex. -/
def ghChars : List Char := "github.com/".data

/-- Strip an expected literal pattern from the front of a string,
returning the remainder on success. -/
def dropPref : List Char → List Char → Option (List Char)
  | [], cs => some cs
  | _ :: _, [] => none
  | p :: ps, c :: cs => if c = p then dropPref ps cs else none

/-- Match `github\.com\/([^\/]+)\/([^\/]+)` at the start of the
string, returning the two captured groups. -/
def matchAt (cs : List Char) : Option (List Char × List Char) :=
  match dropPref ghChars cs with
  | none => none
  | some rest =>
      if (rest.takeWhile nonSlash).isEmpty then none
      else
        match rest.dropWhile nonSlash with
        | [] => none
        | _ :: rest2 =>
            if (rest2.takeWhile nonSlash).isEmpty then none
            else some (rest.takeWhile nonSlash, rest2.takeWhile nonSlash)

/-- `url.match(re)`: the leftmost match of the pattern in the string. -/
def findGH : List Char → Option (List Char × List Char)
  | [] => none
  | c :: cs =>
      match matchAt (c :: cs) with
      | some r => some r
      | none => findGH cs

/-- The pattern removed from the repo segment. -/
def dotGit : List Char := ".git".data

/-- JavaScript `s.replace(pat, '')` with a string pattern: remove the
first occurrence of `pat`, leave the string unchanged when `pat` does
not occur. -/
def replaceFirst (pat : List Char) : List Char → List Char
  | [] => []
  | c :: cs =>
      match dropPref pat (c :: cs) with
      | some rest => rest
      | none => c :: replaceFirst pat cs

/-- `importMutation.mutationFn` up to the network call: either the
thrown `Invalid GitHub URL` error (no request issued), or the
owner/repo pair passed to `projectsApi.importGithub`. -/
def importMutation (url : String) : Except String (String × String) :=
  match findGH url.data with
  | none => Except.error "Invalid GitHub URL"
  | some (ownSeg, repSeg) =>
      Except.ok (String.mk ownSeg, String.mk (replaceFirst dotGit repSeg))

/-- The string contains a substring matching
`github\.com\/([^\/]+)\/([^\/]+)`: somewhere after `github.com/` comes
a nonempty run of non-slash characters, a slash, and at least one more
non-slash character. -/
def ghMatchExists (cs : List Char) : Prop :=
  ∃ pre ownSeg d suffix,
    cs = pre ++ ghChars ++ ownSeg ++ '/' :: d :: suffix ∧
    ownSeg ≠ [] ∧ (∀ c ∈ ownSeg, c ≠ '/') ∧ d ≠ '/'

/-- The pattern occurs somewhere in the string. -/
def occursIn (pat s : List Char) : Prop := ∃ a b, s = a ++ pat ++ b

theorem dropPref_eq_some {p : List Char} :
    ∀ {cs r : List Char}, dropPref p cs = some r ↔ cs = p ++ r := by
  induction p with
  | nil => intro cs r; simp [dropPref]
  | cons x xs ih =>
      intro cs r
      cases cs with
      | nil => simp [dropPref]
      | cons c cs =>
          by_cases h : c = x
          · subst h
            simp [dropPref, ih]
          · simp [dropPref, h, Ne.symm h]

theorem takeWhile_append_of_sat {p : Char → Bool} :
    ∀ (a : List Char) {y : Char} (t : List Char),
      (∀ c ∈ a, p c = true) → p y = false →
      (a ++ y :: t).takeWhile p = a ∧ (a ++ y :: t).dropWhile p = y :: t := by
  intro a
  induction a with
  | nil =>
      intro y t _ hy
      simp [List.takeWhile, List.dropWhile, hy]
  | cons x xs ih =>
      intro y t ha hy
      have hx : p x = true := ha x (List.mem_cons_self x xs)
      have hxs : ∀ c ∈ xs, p c = true := fun c hc => ha c (List.mem_cons_of_mem x hc)
      obtain ⟨h1, h2⟩ := ih t hxs hy
      simp [List.takeWhile, List.dropWhile, hx, h1, h2]

theorem dropWhile_cons_head {p : Char → Bool} :
    ∀ {l : List Char} {c : Char} {cs : List Char},
      l.dropWhile p = c :: cs → p c = false := by
  intro l
  induction l with
  | nil => intro c cs h; simp [List.dropWhile] at h
  | cons x xs ih =>
      intro c cs h
      by_cases hx : p x = true
      · rw [List.dropWhile_cons_of_pos hx] at h
        exact ih h
      · rw [List.dropWhile_cons_of_neg hx] at h
        cases h
        exact Bool.eq_false_iff.mpr hx

theorem nonSlash_iff {c : Char} : nonSlash c = true ↔ c ≠ '/' := by
  simp [nonSlash]

theorem matchAt_some_decomp {cs ownSeg repSeg : List Char}
    (h : matchAt cs = some (ownSeg, repSeg)) :
    ∃ suffix, cs = ghChars ++ ownSeg ++ '/' :: repSeg ++ suffix ∧
      ownSeg ≠ [] ∧ (∀ c ∈ ownSeg, c ≠ '/') ∧
      repSeg ≠ [] ∧ (∀ c ∈ repSeg, c ≠ '/') := by
  unfold matchAt at h
  cases hd : dropPref ghChars cs with
  | none => rw [hd] at h; simp at h
  | some rest =>
      rw [hd] at h
      simp only at h
      by_cases he1 : (rest.takeWhile nonSlash).isEmpty
      · rw [if_pos he1] at h; simp at h
      · rw [if_neg he1] at h
        cases hw : rest.dropWhile nonSlash with
        | nil => rw [hw] at h; simp at h
        | cons s rest2 =>
            rw [hw] at h
            simp only at h
            by_cases he2 : (rest2.takeWhile nonSlash).isEmpty
            · rw [if_pos he2] at h; simp at h
            · rw [if_neg he2] at h
              simp only [Option.some.injEq, Prod.mk.injEq] at h
              obtain ⟨hown, hrep⟩ := h
              have hs : s = '/' := by
                have := dropWhile_cons_head hw
                simpa [nonSlash] using this
              refine ⟨rest2.dropWhile nonSlash, ?_, ?_, ?_, ?_, ?_⟩
              · have hcs : cs = ghChars ++ rest := dropPref_eq_some.mp hd
                have hr : rest = ownSeg ++ '/' :: (repSeg ++ rest2.dropWhile nonSlash) := by
                  conv_lhs => rw [← List.takeWhile_append_dropWhile nonSlash rest, hw, hown, hs]
                  conv_lhs => rw [show rest2 = repSeg ++ rest2.dropWhile nonSlash from by
                    conv_lhs => rw [← List.takeWhile_append_dropWhile nonSlash rest2, hrep]]
                rw [hcs, hr]
                simp [List.append_assoc]
              · intro hx
                rw [← hown] at hx
                simp [hx] at he1
              · intro c hc
                rw [← hown] at hc
                exact nonSlash_iff.mp (List.mem_takeWhile_imp hc)
              · intro hx
                rw [← hrep] at hx
                simp [hx] at he2
              · intro c hc
                rw [← hrep] at hc
                exact nonSlash_iff.mp (List.mem_takeWhile_imp hc)

theorem matchAt_of_decomp {ownSeg : List Char} {d : Char} (suffix : List Char)
    (h1 : ownSeg ≠ []) (h2 : ∀ c ∈ ownSeg, c ≠ '/') (h3 : d ≠ '/') :
    matchAt (ghChars ++ ownSeg ++ '/' :: d :: suffix) ≠ none := by
  have hd : dropPref ghChars (ghChars ++ (ownSeg ++ '/' :: d :: suffix))
      = some (ownSeg ++ '/' :: d :: suffix) := dropPref_eq_some.mpr rfl
  have hsat : ∀ c ∈ ownSeg, nonSlash c = true := fun c hc => nonSlash_iff.mpr (h2 c hc)
  have hslash : nonSlash '/' = false := by simp [nonSlash]
  obtain ⟨ht, hw⟩ := takeWhile_append_of_sat ownSeg (d :: suffix) hsat hslash
  have hdns : nonSlash d = true := nonSlash_iff.mpr h3
  rw [List.append_assoc]
  unfold matchAt
  rw [hd]
  dsimp only
  rw [ht, hw]
  simp [List.isEmpty_iff, h1, List.takeWhile_cons_of_pos hdns]

theorem matchAt_nil : matchAt [] = none := by decide

theorem findGH_eq_none_iff :
    ∀ cs : List Char,
      findGH cs = none ↔
        ∀ pre rest : List Char, cs = pre ++ rest → matchAt rest = none := by
  intro cs
  induction cs with
  | nil =>
      constructor
      · intro _ pre rest h
        obtain ⟨rfl, rfl⟩ := List.append_eq_nil.mp h.symm
        exact matchAt_nil
      · intro _; rfl
  | cons c cs ih =>
      have hsplit : findGH (c :: cs) = none
          ↔ matchAt (c :: cs) = none ∧ findGH cs = none := by
        cases hm : matchAt (c :: cs) <;> simp [findGH, hm]
      rw [hsplit, ih]
      constructor
      · rintro ⟨h1, h2⟩ pre rest heq
        cases pre with
        | nil =>
            rw [List.nil_append] at heq
            exact heq ▸ h1
        | cons p pre =>
            injection heq with hpc htail
            exact h2 pre rest htail
      · intro h
        exact ⟨h [] (c :: cs) rfl,
          fun pre rest heq => h (c :: pre) rest (by rw [heq]; rfl)⟩

theorem findGH_none_iff (cs : List Char) :
    findGH cs = none ↔ ¬ ghMatchExists cs := by
  rw [findGH_eq_none_iff]
  constructor
  · rintro h ⟨pre, ownSeg, d, suffix, heq, h1, h2, h3⟩
    have hm := h pre (ghChars ++ ownSeg ++ '/' :: d :: suffix)
      (by rw [heq]; simp [List.append_assoc])
    exact matchAt_of_decomp suffix h1 h2 h3 hm
  · intro h pre rest heq
    cases hm : matchAt rest with
    | none => rfl
    | some pair =>
        obtain ⟨ownSeg, repSeg⟩ := pair
        obtain ⟨suffix, hrest, h1, h2, h4, h5⟩ := matchAt_some_decomp hm
        obtain ⟨d, repTail, rfl⟩ : ∃ d t, repSeg = d :: t := by
          cases repSeg with
          | nil => exact absurd rfl h4
          | cons d t => exact ⟨d, t, rfl⟩
        refine absurd ⟨pre, ownSeg, d, repTail ++ suffix, ?_, h1, h2,
          h5 d (List.mem_cons_self d repTail)⟩ h
        rw [heq, hrest]
        simp

theorem replaceFirst_of_not_occurs (pat : List Char) :
    ∀ s : List Char, ¬ occursIn pat s → replaceFirst pat s = s := by
  intro s
  induction s with
  | nil => intro _; rfl
  | cons c cs ih =>
      intro hno
      cases hdp : dropPref pat (c :: cs) with
      | some rest =>
          exact absurd ⟨[], rest, by simpa using dropPref_eq_some.mp hdp⟩ hno
      | none =>
          have h2 : ¬ occursIn pat cs := by
            rintro ⟨a, b, rfl⟩
            exact hno ⟨c :: a, b, by simp⟩
          calc replaceFirst pat (c :: cs) = c :: replaceFirst pat cs := by
                simp [replaceFirst, hdp]
            _ = c :: cs := by rw [ih h2]

theorem replaceFirst_first (pat : List Char) (hp : pat ≠ []) :
    ∀ (a b : List Char),
      (∀ a2 b2, a ++ pat ++ b = a2 ++ pat ++ b2 → a.length ≤ a2.length) →
      replaceFirst pat (a ++ pat ++ b) = a ++ b := by
  intro a
  induction a with
  | nil =>
      intro b _
      simp only [List.nil_append]
      cases hpat : pat with
      | nil => exact absurd hpat hp
      | cons p ps =>
          subst hpat
          have hdp : dropPref (p :: ps) (p :: (ps ++ b)) = some b := by
            apply dropPref_eq_some.mpr
            simp
          rw [List.cons_append]
          simp [replaceFirst, hdp]
  | cons x a2 ih =>
      intro b hmin
      have hgoal : (x :: a2) ++ pat ++ b = x :: (a2 ++ pat ++ b) := by simp
      rw [hgoal]
      have hdp : dropPref pat (x :: (a2 ++ pat ++ b)) = none := by
        cases hdp2 : dropPref pat (x :: (a2 ++ pat ++ b)) with
        | none => rfl
        | some rest =>
            have heq := dropPref_eq_some.mp hdp2
            have hle := hmin [] rest (by rw [hgoal, heq]; simp)
            simp at hle
      have hmin2 : ∀ a3 b2, a2 ++ pat ++ b = a3 ++ pat ++ b2 →
          a2.length ≤ a3.length := by
        intro a3 b2 he
        have := hmin (x :: a3) b2 (by rw [hgoal, he]; simp)
        simpa using this
      calc replaceFirst pat (x :: (a2 ++ pat ++ b))
          = x :: replaceFirst pat (a2 ++ pat ++ b) := by
            simp only [replaceFirst]
            rw [hdp]
        _ = x :: (a2 ++ b) := by rw [ih b hmin2]
        _ = (x :: a2) ++ b := by simp

/-- **C10.** The import mutation throws `Invalid GitHub URL` (before
any network request: the error branch is taken instead of the request
branch) if and only if the URL contains no substring matching
`github.com/<owner>/<repo>`; on a match it imports the extracted owner
and repo segments with the first occurrence of `.git` removed from the
repo segment, where removing-the-first-occurrence is characterized by:
a string without an occurrence is unchanged, and splicing out the
leftmost occurrence is exactly what `replaceFirst` computes. -/
theorem importMutation_invalid_iff (url : String) :
    (importMutation url = Except.error "Invalid GitHub URL"
        ↔ ¬ ghMatchExists url.data) ∧
    (∀ ownSeg repSeg, findGH url.data = some (ownSeg, repSeg) →
        importMutation url
          = Except.ok (String.mk ownSeg, String.mk (replaceFirst dotGit repSeg))) ∧
    (∀ s, ¬ occursIn dotGit s → replaceFirst dotGit s = s) ∧
    (∀ a b, (∀ a2 b2, a ++ dotGit ++ b = a2 ++ dotGit ++ b2 →
          a.length ≤ a2.length) →
        replaceFirst dotGit (a ++ dotGit ++ b) = a ++ b) := by
  refine ⟨?_, ?_, replaceFirst_of_not_occurs dotGit,
    replaceFirst_first dotGit (by decide)⟩
  · rw [← findGH_none_iff]
    unfold importMutation
    cases hf : findGH url.data with
    | none => simp
    | some pair =>
        obtain ⟨o, r⟩ := pair
        simp
  · intro ownSeg repSeg h
    unfold importMutation
    rw [h]

/-- Witness for **C10** at a concrete URL. -/
theorem importMutation_invalid_iff_witness :
    importMutation "https://github.com/HIRU-VIRU/latex-agent.git"
      = Except.ok ("HIRU-VIRU", "latex-agent") := by
  have h := (importMutation_invalid_iff
      "https://github.com/HIRU-VIRU/latex-agent.git").2.1
    "HIRU-VIRU".data "latex-agent.git".data (by decide)
  rw [h]
  rfl
